import Mathlib

/-!
Verification of the `translate_citizen` batch utilities.

The Go sources are shallowly embedded:
* byte buffers are `List Nat` (each element one byte, 0..255);
* Go strings handled rune-wise are `List Char`;
* the Go `map[string]string` is a function `List Char → Option (List Char)`
  (lookup), updated by `mapInsert`;
* the per-run statistics struct is `TranslationStats`.

Components embedded below:
* `findSC/main.go`: `detectFileEncoding`, `isBIG5Encoded`, `isGBKEncoded`,
  `scanUTF8ForSimplified` and the dispatch in `main`;
* `init/main.go`: the parsing loop of `parseINIFile`;
* `process/main.go`: `processLine` and the line loop of `translateFile`.
-/

namespace TranslateCitizen

/-! ## Byte-level encoding classifier (findSC/main.go) -/

/-- The UTF-8 byte-order-mark test of `detectFileEncoding` (main.go lines
208–211): the buffer starts with the three bytes EF BB BF. -/
def hasUTF8BOM : List Nat → Bool
  | 0xEF :: 0xBB :: 0xBF :: _ => true
  | _ => false

/-- Go's `utf8.Valid`: the buffer is a sequence of well-formed UTF-8
encodings of scalar values (no surrogates, no overlong forms, max U+10FFFF).
Transcribed from the accept-range table of Go's `unicode/utf8`. -/
def utf8Valid : List Nat → Bool
  | [] => true
  | b0 :: rest =>
    if b0 < 0x80 then utf8Valid rest
    else if b0 < 0xC2 then false
    else if b0 ≤ 0xDF then
      match rest with
      | b1 :: rest2 => (0x80 ≤ b1 && b1 ≤ 0xBF) && utf8Valid rest2
      | [] => false
    else if b0 ≤ 0xEF then
      match rest with
      | b1 :: b2 :: rest2 =>
        (if b0 = 0xE0 then 0xA0 ≤ b1 && b1 ≤ 0xBF
         else if b0 = 0xED then 0x80 ≤ b1 && b1 ≤ 0x9F
         else 0x80 ≤ b1 && b1 ≤ 0xBF)
        && (0x80 ≤ b2 && b2 ≤ 0xBF) && utf8Valid rest2
      | _ => false
    else if b0 ≤ 0xF4 then
      match rest with
      | b1 :: b2 :: b3 :: rest2 =>
        (if b0 = 0xF0 then 0x90 ≤ b1 && b1 ≤ 0xBF
         else if b0 = 0xF4 then 0x80 ≤ b1 && b1 ≤ 0x8F
         else 0x80 ≤ b1 && b1 ≤ 0xBF)
        && (0x80 ≤ b2 && b2 ≤ 0xBF) && (0x80 ≤ b3 && b3 ≤ 0xBF) && utf8Valid rest2
      | _ => false
    else false

/-- The pair search of `isBIG5Encoded` (main.go lines 258–265): some adjacent
byte pair has a lead in 0xA1–0xF9 and a trail in 0x40–0x7E or 0xA1–0xFE. -/
def hasBIG5Pair : List Nat → Bool
  | a :: b :: rest =>
    ((0xA1 ≤ a && a ≤ 0xF9) &&
      ((0x40 ≤ b && b ≤ 0x7E) || (0xA1 ≤ b && b ≤ 0xFE)))
    || hasBIG5Pair (b :: rest)
  | _ => false

/-- The pair search of `isGBKEncoded` (main.go lines 278–284): some adjacent
byte pair has a lead in 0x81–0xFE and a trail in 0x40–0xFE. -/
def hasGBKPair : List Nat → Bool
  | a :: b :: rest =>
    ((0x81 ≤ a && a ≤ 0xFE) && (0x40 ≤ b && b ≤ 0xFE)) || hasGBKPair (b :: rest)
  | _ => false

/-- `isBIG5Encoded` (main.go lines 250–267).  The `x/text` Big5 decoder
substitutes U+FFFD for undecodable bytes instead of erroring, and with a
destination buffer of three times the source it never reports a short
destination, so `err` is always nil; `n`, the number of decoded bytes, is
positive exactly when the buffer is non-empty.  The function therefore
returns true exactly when the byte-range loop finds a qualifying pair (which
forces the buffer non-empty, hence `n > 0`). -/
def isBIG5Encoded (content : List Nat) : Bool :=
  hasBIG5Pair content && !content.isEmpty

/-- `isGBKEncoded` (main.go lines 270–286), with the GBK decoder modelled the
same way as in `isBIG5Encoded`: it never errors and decodes at least one byte
of output for a non-empty buffer. -/
def isGBKEncoded (content : List Nat) : Bool :=
  hasGBKPair content && !content.isEmpty

/-- `detectFileEncoding` (main.go lines 207–247): BOM check, then the
valid-UTF-8-with-no-high-bytes check (the two range flags are computed by a
single loop over the bytes, i.e. `List.any`), then the BIG5 and GBK decode
checks, defaulting to "UTF-8". -/
def detectFileEncoding (content : List Nat) : String :=
  if hasUTF8BOM content then "UTF-8"
  else if utf8Valid content
      && !(content.any fun b => 0x81 ≤ b && b ≤ 0xFE)
      && !(content.any fun b => 0xA1 ≤ b && b ≤ 0xF9) then "UTF-8"
  else if isBIG5Encoded content then "BIG5"
  else if isGBKEncoded content then "GB2312/GBK"
  else "UTF-8"

/-- The four verdicts of the spec's data model (§3, `EncodingVerdict`). -/
inductive EncodingVerdict where
  | UTF8
  | TraditionalByteEncoding
  | SimplifiedByteEncoding
  | Unknown
  deriving DecidableEq

/-- The dispatch of `main` (main.go lines 184–203) on the string returned by
`detectFileEncoding`, mapped to the spec's verdict names: "GB2312/GBK" is the
Simplified verdict, "UTF-8" the UTF8 verdict, "BIG5" the Traditional verdict,
and any other string would fall into the `Unknown` branch. -/
def verdictOf (s : String) : EncodingVerdict :=
  if s = "GB2312/GBK" then EncodingVerdict.SimplifiedByteEncoding
  else if s = "UTF-8" then EncodingVerdict.UTF8
  else if s = "BIG5" then EncodingVerdict.TraditionalByteEncoding
  else EncodingVerdict.Unknown

/-! ## Secondary UTF-8 scan (findSC/main.go, `scanUTF8ForSimplified`) -/

/-- The `dropCR` step of Go's `bufio.ScanLines`: a single trailing carriage
return is removed from each scanned line. -/
def dropCR (l : List Char) : List Char :=
  if l.getLast? = some '\r' then l.dropLast else l

/-- Token accumulation of `bufio.Scanner` with the `ScanLines` split: emit the
text before each newline; after the final newline, a trailing empty remainder
yields no further token. -/
def splitLinesAux : List Char → List Char → List (List Char)
  | [], acc => [dropCR acc.reverse]
  | '\n' :: rest, acc =>
    dropCR acc.reverse ::
      (match rest with
       | [] => []
       | _ => splitLinesAux rest [])
  | c :: rest, acc => splitLinesAux rest (c :: acc)

/-- The line sequence produced by `bufio.Scanner`/`ScanLines` over a whole
text: no token at all for empty input. -/
def splitLinesGo : List Char → List (List Char)
  | [] => []
  | l => splitLinesAux l []

/-- The fixed `simplifiedOnly` table of `scanUTF8ForSimplified`
(main.go lines 348–359). -/
def simplifiedOnly (r : Char) : Bool :=
  r = '国' || r = '门' || r = '长' || r = '开' || r = '车' ||
  r = '贝' || r = '见' || r = '气' || r = '无' || r = '专'

/-- The per-line flagging loop of `scanUTF8ForSimplified` (main.go lines
364–385): for each line, in order, every rune in the `simplifiedOnly` table is
reported with its 1-based line number. -/
def scanFlagsAux : Nat → List (List Char) → List (Nat × Char)
  | _, [] => []
  | n, line :: rest =>
    (line.filter simplifiedOnly).map (fun r => (n, r)) ++ scanFlagsAux (n + 1) rest

/-- The list of flagged characters reported by `scanUTF8ForSimplified`
(main.go lines 337–394); the printed `foundCount` is its length. -/
def scanUTF8ForSimplified (content : List Char) : List (Nat × Char) :=
  scanFlagsAux 1 (splitLinesGo content)

/-- The UTF-8 encoding of one scalar value (Go `utf8.EncodeRune`), used to
relate a rune string to the byte buffer Go reads from a UTF-8 file. -/
def utf8EncodeChar (c : Char) : List Nat :=
  let u := c.toNat
  if u < 0x80 then [u]
  else if u < 0x800 then [0xC0 + u / 64, 0x80 + u % 64]
  else if u < 0x10000 then
    [0xE0 + u / 4096, 0x80 + (u / 64) % 64, 0x80 + u % 64]
  else
    [0xF0 + u / 262144, 0x80 + (u / 4096) % 64, 0x80 + (u / 64) % 64, 0x80 + u % 64]

/-- UTF-8 encoding of a rune sequence. -/
def utf8Encode (l : List Char) : List Nat :=
  l.foldr (fun c acc => utf8EncodeChar c ++ acc) []

/-! ## Line parsing primitives shared by init/main.go and process/main.go -/

/-- Go `unicode.IsSpace`: the Unicode White_Space code points, as trimmed by
`strings.TrimSpace`. -/
def goIsSpace (c : Char) : Bool :=
  let u := c.toNat
  (0x9 ≤ u && u ≤ 0xD) || u = 0x20 || u = 0x85 || u = 0xA0 || u = 0x1680 ||
  (0x2000 ≤ u && u ≤ 0x200A) || u = 0x2028 || u = 0x2029 ||
  u = 0x202F || u = 0x205F || u = 0x3000

/-- Removal of trailing white space (the right half of `strings.TrimSpace`). -/
def trimRight : List Char → List Char
  | [] => []
  | a :: t =>
    let t2 := trimRight t
    if t2.isEmpty then (if goIsSpace a then [] else [a]) else a :: t2

/-- Go `strings.TrimSpace`: drop leading and trailing White_Space runes. -/
def trimSpace (l : List Char) : List Char :=
  trimRight (l.dropWhile goIsSpace)

/-- Go `strings.Index(line, "=")` together with the slices `line[:index]` and
`line[index+1:]`: `none` when the line has no `'='`, otherwise the parts
before and after the first `'='`. -/
def breakEq : List Char → Option (List Char × List Char)
  | [] => none
  | c :: t =>
    if c = '=' then some ([], t)
    else (breakEq t).map (fun p => (c :: p.1, p.2))

/-- First-rune test used for the comment checks (`strings.HasPrefix` with a
one-rune prefix). -/
def startsWithChar (c : Char) : List Char → Bool
  | [] => false
  | a :: _ => a == c

/-- The rune U+FEFF, i.e. the one-rune Go string the sources write as the
byte-order mark prefix after decoding. -/
def bomChar : Char := '﻿'

/-! ## Substitution applier (process/main.go) -/

/-- `TranslationStats` (process/main.go lines 66–72). -/
structure TranslationStats where
  totalLines : Nat
  translated : Nat
  unchanged : Nat
  skipped : Nat
  notFound : Nat
  deriving DecidableEq

/-- The all-zero statistics `&TranslationStats{}` of `translateFile`. -/
def zeroStats : TranslationStats := ⟨0, 0, 0, 0, 0⟩

/-- The Go `map[string]string`, seen through its lookup operation. -/
def GoMap : Type := List Char → Option (List Char)

/-- The empty Go map. -/
def emptyGoMap : GoMap := fun _ => none

/-- The Go map assignment `m[key] = value`. -/
def mapInsert (m : GoMap) (k v : List Char) : GoMap :=
  fun q => if q = k then some v else m q

/-- `processLine` (process/main.go lines 207–245): trim, skip blank and
comment lines, find the first `'='` in the raw line, trim the key (the
trimmed value is computed but unused), and rewrite the line as
`key + "=" + translatedValue` when the key is in the map.  Returns the line
to emit together with the updated statistics. -/
def processLine (line : List Char) (tm : GoMap) (stats : TranslationStats) :
    List Char × TranslationStats :=
  let trimmed := trimSpace line
  if trimmed.isEmpty || startsWithChar '#' trimmed || startsWithChar ';' trimmed then
    (line, { stats with skipped := stats.skipped + 1 })
  else
    match breakEq line with
    | none => (line, { stats with unchanged := stats.unchanged + 1 })
    | some p =>
      let key := trimSpace p.1
      if key.isEmpty then
        (line, { stats with unchanged := stats.unchanged + 1 })
      else
        match tm key with
        | some tv => (key ++ '=' :: tv, { stats with translated := stats.translated + 1 })
        | none =>
          (line, { stats with notFound := stats.notFound + 1,
                              unchanged := stats.unchanged + 1 })

/-- One iteration of the scan loop of `translateFile` (process/main.go lines
156–184): the line counter and `stats.TotalLines` are incremented, and on
line 1 a leading byte-order mark is stripped (`strings.TrimPrefix`), the rest
processed, and the mark re-prepended to the emitted line. -/
def translateStep (lineNumber : Nat) (line : List Char) (tm : GoMap)
    (stats : TranslationStats) : List Char × TranslationStats :=
  let stats1 := { stats with totalLines := stats.totalLines + 1 }
  if lineNumber = 1 && startsWithChar bomChar line then
    let r := processLine line.tail tm stats1
    (bomChar :: r.1, r.2)
  else
    processLine line tm stats1

/-- The whole scan loop of `translateFile`, threading the line counter and
the statistics; returns the emitted lines and the final statistics. -/
def translateGo (n : Nat) (lines : List (List Char)) (tm : GoMap)
    (stats : TranslationStats) : List (List Char) × TranslationStats :=
  match lines with
  | [] => ([], stats)
  | l :: rest =>
    let r := translateStep n l tm stats
    let rr := translateGo (n + 1) rest tm r.2
    (r.1 :: rr.1, rr.2)

/-- `translateFile` (process/main.go lines 135–204) at the level of its line
transformation: the scanner starts at line number 1 (`lineNumber := 0`,
incremented before each line) with zeroed statistics. -/
def translateFile (lines : List (List Char)) (tm : GoMap) :
    List (List Char) × TranslationStats :=
  translateGo 1 lines tm zeroStats

/-! ## Extraction pass (init/main.go, `parseINIFile`) -/

/-- The body of the scan loop of `parseINIFile` (init/main.go lines 59–95)
for one line: strip a byte-order mark on line 1, trim, skip blank and comment
lines, find the first `'='` in the **trimmed** line, trim key and value, skip
empty keys; `some (key, value)` exactly when the line contributes an entry. -/
def parseLineEntry (lineNumber : Nat) (rawLine : List Char) :
    Option (List Char × List Char) :=
  let line0 := if lineNumber = 1 && startsWithChar bomChar rawLine
               then rawLine.tail else rawLine
  let line := trimSpace line0
  if line.isEmpty || startsWithChar '#' line || startsWithChar ';' line then none
  else
    match breakEq line with
    | none => none
    | some p =>
      let key := trimSpace p.1
      let value := trimSpace p.2
      if key.isEmpty then none else some (key, value)

/-- The scan loop of `parseINIFile`: each extracted entry is stored with
`entries[key] = value`. -/
def parseINIGo (n : Nat) (lines : List (List Char)) (entries : GoMap) : GoMap :=
  match lines with
  | [] => entries
  | l :: rest =>
    match parseLineEntry n l with
    | none => parseINIGo (n + 1) rest entries
    | some kv => parseINIGo (n + 1) rest (mapInsert entries kv.1 kv.2)

/-- `parseINIFile` (init/main.go lines 48–102) over an in-memory line
sequence: line numbers start at 1 and the entry map starts empty. -/
def parseINIFile (lines : List (List Char)) : GoMap :=
  parseINIGo 1 lines emptyGoMap

/-- The ordered sequence of `(key, value)` records the scan of
`parseINIFile` extracts, before they are folded into the map. -/
def iniEntries (n : Nat) (lines : List (List Char)) :
    List (List Char × List Char) :=
  match lines with
  | [] => []
  | l :: rest =>
    match parseLineEntry n l with
    | none => iniEntries (n + 1) rest
    | some kv => kv :: iniEntries (n + 1) rest

/-- The value of the last record binding `k` in a record sequence, if any:
the reference meaning of last-write-wins folding. -/
def lastBinding (l : List (List Char × List Char)) (k : List Char) :
    Option (List Char) :=
  l.foldl (fun acc p => if p.1 = k then some p.2 else acc) none

/-! ## Line classifications (claim C10) -/

/-- The classification a line receives (spec §3, `LineRecord`), with the
extracted key for valid lines. -/
inductive LineClass where
  | blank
  | comment
  | noSep
  | emptyKey
  | valid (key : List Char)
  deriving DecidableEq

/-- The classification induced by the control flow of `parseINIFile`
(init/main.go lines 68–94), ignoring the line-1 byte-order-mark handling: the
`'='` search runs on the **trimmed** line. -/
def classifyInit (rawLine : List Char) : LineClass :=
  let line := trimSpace rawLine
  if line.isEmpty then LineClass.blank
  else if startsWithChar '#' line || startsWithChar ';' line then LineClass.comment
  else
    match breakEq line with
    | none => LineClass.noSep
    | some p =>
      let key := trimSpace p.1
      if key.isEmpty then LineClass.emptyKey else LineClass.valid key

/-- The classification induced by the control flow of `processLine`
(process/main.go lines 207–245): blank and comment checks on the trimmed
line, but the `'='` search runs on the **raw** line. -/
def classifyProc (line : List Char) : LineClass :=
  let trimmed := trimSpace line
  if trimmed.isEmpty then LineClass.blank
  else if startsWithChar '#' trimmed || startsWithChar ';' trimmed then LineClass.comment
  else
    match breakEq line with
    | none => LineClass.noSep
    | some p =>
      let key := trimSpace p.1
      if key.isEmpty then LineClass.emptyKey else LineClass.valid key

/-! ## Derived definitions used in the statements -/

/-- The line emitted by one iteration of the `translateFile` loop for the
input line `l` at 1-based position `n`; the emitted text does not depend on
the running statistics (`translateStep_fst`), so it is taken at `zeroStats`. -/
def stepOut (n : Nat) (l : List Char) (tm : GoMap) : List Char :=
  (translateStep n l tm zeroStats).1

/-- The input configurations under which a second substitution pass can
diverge from the first: line 1 of the input does not begin with U+FEFF but
line 1 of the output does (a translated key starting with U+FEFF after
leading whitespace), so the second pass strips it as a byte-order mark and
parses a different key. -/
def firstLineGainsBOM (lines : List (List Char)) (tm : GoMap) : Bool :=
  match lines, (translateFile lines tm).1 with
  | l :: _, o :: _ => !startsWithChar bomChar l && startsWithChar bomChar o
  | _, _ => false

/-- Modelled from the spec (§4.4): "a lead byte in 0xA1–0xF9 followed by a
trail byte in 0x40–0x7E or 0xA1–0xFE constitutes a valid two-byte sequence";
the whole buffer "decodes without error under this scheme" when it is a
sequence of single bytes below 0x80 and such two-byte sequences.  This is the
decodability notion the claim about the Traditional-Chinese check refers to;
it is compared against what `isBIG5Encoded` actually computes. -/
def big5WholeBufferDecodes : List Nat → Bool
  | [] => true
  | [a] => a < 0x80
  | a :: b :: rest =>
    if a < 0x80 then big5WholeBufferDecodes (b :: rest)
    else ((0xA1 ≤ a && a ≤ 0xF9) &&
      ((0x40 ≤ b && b ≤ 0x7E) || (0xA1 ≤ b && b ≤ 0xFE)))
      && big5WholeBufferDecodes rest

/-- The trimmed value `parseINIFile` extracts from a line (the part of the
trimmed line after the first `'='`, trimmed again); `[]` for lines that
yield no entry. -/
def initValue (rawLine : List Char) : List Char :=
  match breakEq (trimSpace rawLine) with
  | some p => trimSpace p.2
  | none => []

/-! ## Concrete inputs used in counterexamples and witnesses -/

/-- The rune sequence of the spec's example buffer `"ASD_Country=国家\n"`. -/
def asdContent : List Char := "ASD_Country=国家\n".data

/-- The bytes of the example buffer saved as UTF-8 without a byte-order
mark (`utf8Encode asdContent`, spelled out). -/
def asdBytes : List Nat :=
  [0x41, 0x53, 0x44, 0x5F, 0x43, 0x6F, 0x75, 0x6E, 0x74, 0x72, 0x79, 0x3D,
   0xE5, 0x9B, 0xBD, 0xE5, 0xAE, 0xB6, 0x0A]

/-- A translation map binding both the key `"﻿k"` (U+FEFF then `k`) and the
key `"k"`. -/
def bomCexMap : GoMap :=
  mapInsert (mapInsert emptyGoMap ('﻿' :: ['k']) ['A']) ['k'] ['B']

/-- A one-line input whose line 1 is `" ﻿k=v"`: a space, then U+FEFF,
then `k=v`. -/
def bomCexLines : List (List Char) := [[' ', '﻿', 'k', '=', 'v']]

/-- The translation map `{K1 ↦ X1}` of the spec's §8 example. -/
def demoMap : GoMap := mapInsert emptyGoMap "K1".data "X1".data

/-- The input lines `K1=V1`, `K2=V2` of the spec's §8 example. -/
def demoLines : List (List Char) := ["K1=V1".data, "K2=V2".data]

/-! ## Lemmas about trimming -/

theorem trimRight_cons_of_not_space (a : Char) (t : List Char)
    (h : goIsSpace a = false) : trimRight (a :: t) = a :: trimRight t := by
  simp only [trimRight]
  by_cases ht : (trimRight t).isEmpty
  · rw [if_pos ht, if_neg (by simp [h]), List.isEmpty_iff.mp ht]
  · rw [if_neg ht]

theorem trimRight_head (m : List Char) (c : Char) (k : List Char)
    (h : trimRight m = c :: k) : ∃ m2, m = c :: m2 := by
  cases m with
  | nil => simp [trimRight] at h
  | cons a t =>
    refine ⟨t, ?_⟩
    simp only [trimRight] at h
    split at h
    · split at h
      · exact absurd h (by simp)
      · injection h with h1 h2
        rw [h1]
    · injection h with h1 h2
      rw [h1]

theorem dropWhile_head_false {p : Char → Bool} {l : List Char} {a : Char}
    {t : List Char} (h : l.dropWhile p = a :: t) : p a = false := by
  induction l with
  | nil => simp at h
  | cons b r ih =>
    rw [List.dropWhile_cons] at h
    by_cases hb : p b
    · exact ih (by rwa [if_pos hb] at h)
    · rw [if_neg hb] at h
      injection h with h1 h2
      rw [← h1]
      simpa using hb

theorem trimSpace_head_false {l : List Char} {c : Char} {r : List Char}
    (h : trimSpace l = c :: r) : goIsSpace c = false := by
  obtain ⟨m2, hm⟩ := trimRight_head _ _ _ h
  exact dropWhile_head_false hm

theorem trimSpace_cons_not_space (c : Char) (r : List Char)
    (h : goIsSpace c = false) : trimSpace (c :: r) = c :: trimRight r := by
  simp only [trimSpace, List.dropWhile_cons]
  rw [if_neg (by simp [h])]
  exact trimRight_cons_of_not_space c r h

theorem trimRight_idem (l : List Char) : trimRight (trimRight l) = trimRight l := by
  induction l with
  | nil => rfl
  | cons a t ih =>
    by_cases ht : (trimRight t).isEmpty
    · by_cases ha : goIsSpace a
      · have h0 : trimRight (a :: t) = [] := by
          simp only [trimRight]
          rw [if_pos ht, if_pos ha]
        rw [h0]
        rfl
      · have h0 : trimRight (a :: t) = [a] := by
          simp only [trimRight]
          rw [if_pos ht, if_neg ha]
        rw [h0]
        simp [trimRight, ha]
    · have h1 : trimRight (a :: t) = a :: trimRight t := by
        simp only [trimRight]
        rw [if_neg ht]
      rw [h1]
      simp only [trimRight, ih]
      rw [if_neg ht]

theorem trimSpace_idem (l : List Char) : trimSpace (trimSpace l) = trimSpace l := by
  cases h : trimSpace l with
  | nil => rfl
  | cons c r =>
    have hc : goIsSpace c = false := trimSpace_head_false h
    have hr : trimRight r = r := by
      have h2 : trimRight (c :: r) = c :: r := by
        conv_lhs => rw [← h]
        show trimRight (trimRight (l.dropWhile goIsSpace)) = _
        rw [trimRight_idem]
        exact h
      rw [trimRight_cons_of_not_space c r hc] at h2
      injection h2 with h3 h4
    rw [trimSpace_cons_not_space c r hc, hr]

/-! ## Lemmas about the first-separator split -/

theorem breakEq_eq_append {l : List Char} {p : List Char × List Char}
    (h : breakEq l = some p) : l = p.1 ++ '=' :: p.2 ∧ '=' ∉ p.1 := by
  induction l generalizing p with
  | nil => simp [breakEq] at h
  | cons c t ih =>
    by_cases hc : c = '='
    · subst hc
      simp [breakEq] at h
      rw [← h]
      simp
    · rw [show breakEq (c :: t) = (breakEq t).map (fun q => (c :: q.1, q.2)) from by
        simp [breakEq, hc]] at h
      cases hbt : breakEq t with
      | none => rw [hbt] at h; simp at h
      | some q =>
        rw [hbt] at h
        simp at h
        obtain ⟨h1, h2⟩ := ih hbt
        rw [← h]
        refine ⟨by simpa using congrArg (c :: ·) h1, ?_⟩
        simp
        exact ⟨fun he => hc he.symm, h2⟩

theorem breakEq_none_iff {l : List Char} : breakEq l = none ↔ '=' ∉ l := by
  induction l with
  | nil => simp [breakEq]
  | cons c t ih =>
    by_cases hc : c = '='
    · subst hc; simp [breakEq]
    · simp only [breakEq, if_neg hc, List.mem_cons]
      constructor
      · intro h hmem
        rcases hmem with h1 | h2
        · exact hc h1.symm
        · have hbt : breakEq t = none := by
            cases hb2 : breakEq t
            · rfl
            · rw [hb2] at h; simp at h
          exact ih.mp hbt h2
      · intro h
        have hbt : breakEq t = none := ih.mpr fun hm => h (Or.inr hm)
        rw [hbt]
        rfl

theorem breakEq_append_of_not_mem {b : List Char} (a : List Char)
    (h : '=' ∉ b) : breakEq (b ++ '=' :: a) = some (b, a) := by
  induction b with
  | nil => simp [breakEq]
  | cons c t ih =>
    have hc : ¬(c = '=') := fun he => h (he ▸ List.mem_cons_self c t)
    have ht : '=' ∉ t := fun hm => h (List.mem_cons_of_mem c hm)
    simp only [List.cons_append, breakEq]
    rw [if_neg hc]
    simp only [List.append_eq]
    rw [ih ht]
    rfl

theorem breakEq_append_of_some {x : List Char} {p : List Char × List Char}
    (y : List Char) (h : breakEq x = some p) :
    breakEq (x ++ y) = some (p.1, p.2 ++ y) := by
  obtain ⟨h1, h2⟩ := breakEq_eq_append h
  rw [h1, List.append_assoc, List.cons_append]
  exact breakEq_append_of_not_mem (p.2 ++ y) h2

theorem breakEq_append_of_none {x : List Char} (y : List Char)
    (h : breakEq x = none) :
    breakEq (x ++ y) = (breakEq y).map (fun q => (x ++ q.1, q.2)) := by
  induction x with
  | nil => simp
  | cons c t ih =>
    have hc : ¬(c = '=') := by
      intro he
      subst he
      simp [breakEq] at h
    have ht : breakEq t = none :=
      breakEq_none_iff.mpr fun hm => breakEq_none_iff.mp h (List.mem_cons_of_mem c hm)
    simp only [List.cons_append, breakEq]
    rw [if_neg hc]
    simp only [List.append_eq]
    rw [ih ht]
    cases breakEq y <;> simp

/-! ## Whitespace decomposition lemmas -/

theorem goIsSpace_eq_false : goIsSpace '=' = false := by decide

theorem dropWhile_append_cons {p : Char → Bool} {b : List Char} {c : Char}
    {w : List Char} (y : List Char) (h : b.dropWhile p = c :: w) :
    (b ++ y).dropWhile p = c :: (w ++ y) := by
  induction b with
  | nil => simp at h
  | cons d t ih =>
    rw [List.dropWhile_cons] at h
    by_cases hd : p d
    · rw [if_pos hd] at h
      simpa [List.dropWhile_cons, hd] using ih h
    · rw [if_neg hd] at h
      injection h with h1 h2
      subst h1
      simp [List.dropWhile_cons, hd, h2]

theorem dropWhile_spaces_append {sp : List Char} (x : List Char)
    (h : ∀ c ∈ sp, goIsSpace c = true) :
    (sp ++ x).dropWhile goIsSpace = x.dropWhile goIsSpace := by
  induction sp with
  | nil => simp
  | cons c t ih =>
    simp only [List.cons_append, List.dropWhile_cons]
    rw [if_pos (h c (List.mem_cons_self c t))]
    exact ih fun d hd => h d (List.mem_cons_of_mem c hd)

theorem trimSpace_spaces_append {sp : List Char} (x : List Char)
    (h : ∀ c ∈ sp, goIsSpace c = true) :
    trimSpace (sp ++ x) = trimSpace x := by
  simp only [trimSpace]
  rw [dropWhile_spaces_append x h]

theorem trimRight_decomp (l : List Char) :
    ∃ sp, l = trimRight l ++ sp ∧ ∀ c ∈ sp, goIsSpace c = true := by
  induction l with
  | nil => exact ⟨[], by simp [trimRight]⟩
  | cons a t ih =>
    obtain ⟨sp, h1, h2⟩ := ih
    by_cases ht : (trimRight t).isEmpty
    · have htnil : trimRight t = [] := List.isEmpty_iff.mp ht
      have hts : t = sp := by rw [htnil] at h1; simpa using h1
      by_cases ha : goIsSpace a
      · refine ⟨a :: t, ?_, ?_⟩
        · have h0 : trimRight (a :: t) = [] := by
            simp only [trimRight]
            rw [if_pos ht, if_pos ha]
          rw [h0]
          rfl
        · intro c hc
          rcases List.mem_cons.mp hc with hcc | hcc
          · rw [hcc]; exact ha
          · exact h2 c (hts ▸ hcc)
      · have h0 : trimRight (a :: t) = [a] := by
          simp only [trimRight]
          rw [if_pos ht, if_neg ha]
        refine ⟨sp, ?_, h2⟩
        rw [h0]
        rw [← hts]
        rfl
    · have h0 : trimRight (a :: t) = a :: trimRight t := by
        simp only [trimRight]
        rw [if_neg ht]
      exact ⟨sp, by rw [h0]; simpa using congrArg (a :: ·) h1, h2⟩

theorem trimSpace_decomp (l : List Char) :
    ∃ spL spR, l = spL ++ trimSpace l ++ spR ∧
      (∀ c ∈ spL, goIsSpace c = true) ∧ (∀ c ∈ spR, goIsSpace c = true) := by
  obtain ⟨spR, h1, h2⟩ := trimRight_decomp (l.dropWhile goIsSpace)
  refine ⟨l.takeWhile goIsSpace, spR, ?_, ?_, h2⟩
  · conv_lhs => rw [← List.takeWhile_append_dropWhile (p := goIsSpace) (l := l)]
    rw [show trimSpace l = trimRight (l.dropWhile goIsSpace) from rfl, List.append_assoc, ← h1]
  · intro c hc
    exact List.mem_takeWhile_imp hc

theorem trimRight_sublist (l : List Char) : List.Sublist (trimRight l) l := by
  induction l with
  | nil => simp [trimRight]
  | cons a t ih =>
    by_cases ht : (trimRight t).isEmpty
    · by_cases ha : goIsSpace a
      · have h0 : trimRight (a :: t) = [] := by
          simp only [trimRight]; rw [if_pos ht, if_pos ha]
        rw [h0]; exact List.nil_sublist _
      · have h0 : trimRight (a :: t) = [a] := by
          simp only [trimRight]; rw [if_pos ht, if_neg ha]
        rw [h0]
        exact (List.nil_sublist t).cons₂ a
    · have h0 : trimRight (a :: t) = a :: trimRight t := by
        simp only [trimRight]; rw [if_neg ht]
      rw [h0]
      exact ih.cons₂ a

theorem trimSpace_sublist (l : List Char) : List.Sublist (trimSpace l) l :=
  (trimRight_sublist (l.dropWhile goIsSpace)).trans (List.dropWhile_sublist _)

theorem not_mem_trimSpace {b : List Char} (h : '=' ∉ b) : '=' ∉ trimSpace b :=
  fun hm => h ((trimSpace_sublist b).subset hm)

theorem key_head {l : List Char} {p : List Char × List Char} {c : Char}
    {k : List Char} (hbe : breakEq l = some p) (hkey : trimSpace p.1 = c :: k) :
    ∃ r, trimSpace l = c :: r := by
  obtain ⟨hl, _⟩ := breakEq_eq_append hbe
  obtain ⟨m2, hm⟩ := trimRight_head _ _ _ hkey
  have hc : goIsSpace c = false := dropWhile_head_false hm
  have hdw : (p.1 ++ '=' :: p.2).dropWhile goIsSpace = c :: (m2 ++ '=' :: p.2) :=
    dropWhile_append_cons _ hm
  refine ⟨trimRight (m2 ++ '=' :: p.2), ?_⟩
  rw [hl]
  show trimRight ((p.1 ++ '=' :: p.2).dropWhile goIsSpace) = _
  rw [hdw]
  exact trimRight_cons_of_not_space c _ hc

/-! ## Lemmas about processLine -/

theorem processLine_skip {line : List Char} (tm : GoMap) (s : TranslationStats)
    (h : ((trimSpace line).isEmpty || startsWithChar '#' (trimSpace line) ||
      startsWithChar ';' (trimSpace line)) = true) :
    processLine line tm s = (line, { s with skipped := s.skipped + 1 }) := by
  simp [processLine, h]

theorem processLine_noSep {line : List Char} (tm : GoMap) (s : TranslationStats)
    (h : ((trimSpace line).isEmpty || startsWithChar '#' (trimSpace line) ||
      startsWithChar ';' (trimSpace line)) = false)
    (hbe : breakEq line = none) :
    processLine line tm s = (line, { s with unchanged := s.unchanged + 1 }) := by
  simp [processLine, h, hbe]

theorem processLine_emptyKey {line : List Char} {p : List Char × List Char}
    (tm : GoMap) (s : TranslationStats)
    (h : ((trimSpace line).isEmpty || startsWithChar '#' (trimSpace line) ||
      startsWithChar ';' (trimSpace line)) = false)
    (hbe : breakEq line = some p) (hk : (trimSpace p.1).isEmpty = true) :
    processLine line tm s = (line, { s with unchanged := s.unchanged + 1 }) := by
  simp [processLine, h, hbe, hk]

theorem processLine_translated {line : List Char} {p : List Char × List Char}
    {tv : List Char} (tm : GoMap) (s : TranslationStats)
    (h : ((trimSpace line).isEmpty || startsWithChar '#' (trimSpace line) ||
      startsWithChar ';' (trimSpace line)) = false)
    (hbe : breakEq line = some p) (hk : (trimSpace p.1).isEmpty = false)
    (htm : tm (trimSpace p.1) = some tv) :
    processLine line tm s =
      (trimSpace p.1 ++ '=' :: tv, { s with translated := s.translated + 1 }) := by
  simp [processLine, h, hbe, hk, htm]

theorem processLine_notFound {line : List Char} {p : List Char × List Char}
    (tm : GoMap) (s : TranslationStats)
    (h : ((trimSpace line).isEmpty || startsWithChar '#' (trimSpace line) ||
      startsWithChar ';' (trimSpace line)) = false)
    (hbe : breakEq line = some p) (hk : (trimSpace p.1).isEmpty = false)
    (htm : tm (trimSpace p.1) = none) :
    processLine line tm s =
      (line, { s with notFound := s.notFound + 1, unchanged := s.unchanged + 1 }) := by
  simp [processLine, h, hbe, hk, htm]

theorem processLine_fst (l : List Char) (tm : GoMap) (s s2 : TranslationStats) :
    (processLine l tm s).1 = (processLine l tm s2).1 := by
  by_cases hskip : ((trimSpace l).isEmpty || startsWithChar '#' (trimSpace l) ||
      startsWithChar ';' (trimSpace l)) = true
  · rw [processLine_skip tm s hskip, processLine_skip tm s2 hskip]
  · rw [Bool.not_eq_true] at hskip
    cases hbe : breakEq l with
    | none => rw [processLine_noSep tm s hskip hbe, processLine_noSep tm s2 hskip hbe]
    | some p =>
      cases hk : (trimSpace p.1).isEmpty with
      | true =>
        rw [processLine_emptyKey tm s hskip hbe hk,
          processLine_emptyKey tm s2 hskip hbe hk]
      | false =>
        cases htm : tm (trimSpace p.1) with
        | none =>
          rw [processLine_notFound tm s hskip hbe hk htm,
            processLine_notFound tm s2 hskip hbe hk htm]
        | some tv =>
          rw [processLine_translated tm s hskip hbe hk htm,
            processLine_translated tm s2 hskip hbe hk htm]

theorem processLine_idem (l : List Char) (tm : GoMap) (s s2 : TranslationStats) :
    (processLine ((processLine l tm s).1) tm s2).1 = (processLine l tm s).1 := by
  by_cases hskip : ((trimSpace l).isEmpty || startsWithChar '#' (trimSpace l) ||
      startsWithChar ';' (trimSpace l)) = true
  · rw [processLine_skip tm s hskip]
    rw [processLine_skip tm s2 hskip]
  · rw [Bool.not_eq_true] at hskip
    cases hbe : breakEq l with
    | none =>
      rw [processLine_noSep tm s hskip hbe]
      rw [processLine_noSep tm s2 hskip hbe]
    | some p =>
      cases hkey : trimSpace p.1 with
      | nil =>
        have hk : (trimSpace p.1).isEmpty = true := by rw [hkey]; rfl
        rw [processLine_emptyKey tm s hskip hbe hk]
        rw [processLine_emptyKey tm s2 hskip hbe hk]
      | cons c k =>
        have hk : (trimSpace p.1).isEmpty = false := by rw [hkey]; rfl
        cases htm : tm (trimSpace p.1) with
        | none =>
          rw [processLine_notFound tm s hskip hbe hk htm]
          rw [processLine_notFound tm s2 hskip hbe hk htm]
        | some tv =>
          rw [processLine_translated tm s hskip hbe hk htm]
          -- the emitted line is key ++ "=" ++ tv; reprocessing it is stable
          have hc : goIsSpace c = false := trimSpace_head_false hkey
          obtain ⟨r, hr⟩ := key_head hbe hkey
          have hB : startsWithChar '#' (trimSpace l) = false ∧
              startsWithChar ';' (trimSpace l) = false := by
            rcases Bool.or_eq_false_iff.mp hskip with ⟨h1, h2⟩
            exact ⟨(Bool.or_eq_false_iff.mp h1).2, h2⟩
          have hch : (c == '#') = false := by
            have := hB.1
            rw [hr] at this
            simpa [startsWithChar] using this
          have hcs : (c == ';') = false := by
            have := hB.2
            rw [hr] at this
            simpa [startsWithChar] using this
          have hnotmem : '=' ∉ (c :: k) := by
            rw [← hkey]
            exact not_mem_trimSpace (breakEq_eq_append hbe).2
          have hkeytrim : trimSpace (c :: k) = c :: k := by
            rw [← hkey]
            exact trimSpace_idem p.1
          -- the second pass on the rebuilt line
          have hout : (c :: k) ++ '=' :: tv = c :: (k ++ '=' :: tv) := rfl
          have htrim2 : trimSpace ((c :: k) ++ '=' :: tv) =
              c :: trimRight (k ++ '=' :: tv) := by
            rw [hout]
            exact trimSpace_cons_not_space c _ hc
          have hskip2 : ((trimSpace ((c :: k) ++ '=' :: tv)).isEmpty ||
              startsWithChar '#' (trimSpace ((c :: k) ++ '=' :: tv)) ||
              startsWithChar ';' (trimSpace ((c :: k) ++ '=' :: tv))) = false := by
            rw [htrim2]
            simp [startsWithChar, hch, hcs]
          have hbe2 : breakEq ((c :: k) ++ '=' :: tv) = some (c :: k, tv) :=
            breakEq_append_of_not_mem tv hnotmem
          have hk2 : (trimSpace (c :: k)).isEmpty = false := by
            rw [hkeytrim]; rfl
          have htm2 : tm (trimSpace (c :: k)) = some tv := by
            rw [hkeytrim, ← hkey]
            exact htm
          rw [hkey]
          have := processLine_translated (p := (c :: k, tv)) tm s2 hskip2 hbe2 hk2 htm2
          rw [this]
          rw [hkeytrim]

/-! ## Lemmas about the translateFile loop -/

theorem translateStep_fst (n : Nat) (l : List Char) (tm : GoMap)
    (s s2 : TranslationStats) :
    (translateStep n l tm s).1 = (translateStep n l tm s2).1 := by
  simp only [translateStep]
  split
  · exact congrArg (bomChar :: ·) (processLine_fst _ tm _ _)
  · exact processLine_fst _ tm _ _

theorem translateStep_fst_stepOut (n : Nat) (l : List Char) (tm : GoMap)
    (s : TranslationStats) : (translateStep n l tm s).1 = stepOut n l tm :=
  translateStep_fst n l tm s zeroStats

theorem translateGo_length (tm : GoMap) (lines : List (List Char)) :
    ∀ n s, (translateGo n lines tm s).1.length = lines.length := by
  induction lines with
  | nil => intro n s; rfl
  | cons l rest ih =>
    intro n s
    simp only [translateGo, List.length_cons]
    rw [ih]

theorem translateGo_get (tm : GoMap) (lines : List (List Char)) :
    ∀ i n s, (translateGo n lines tm s).1.get? i =
      (lines.get? i).map (fun l => stepOut (n + i) l tm) := by
  induction lines with
  | nil => intro i n s; cases i <;> rfl
  | cons l rest ih =>
    intro i n s
    cases i with
    | zero =>
      simp only [translateGo, List.get?]
      rw [translateStep_fst_stepOut]
      simp
    | succ j =>
      simp only [translateGo, List.get?]
      rw [ih j (n + 1)]
      rw [show n + 1 + j = n + (j + 1) from by omega]

theorem processLine_stats (l : List Char) (tm : GoMap) (s : TranslationStats) :
    ((processLine l tm s).2.totalLines = s.totalLines)
    ∧ ((processLine l tm s).2.translated + (processLine l tm s).2.unchanged
        + (processLine l tm s).2.skipped
        = s.translated + s.unchanged + s.skipped + 1)
    ∧ ((processLine l tm s).2.notFound + s.unchanged
        ≤ s.notFound + (processLine l tm s).2.unchanged) := by
  by_cases hskip : ((trimSpace l).isEmpty || startsWithChar '#' (trimSpace l) ||
      startsWithChar ';' (trimSpace l)) = true
  · rw [processLine_skip tm s hskip]
    refine ⟨rfl, by simp; try omega, by simp; try omega⟩
  · rw [Bool.not_eq_true] at hskip
    cases hbe : breakEq l with
    | none =>
      rw [processLine_noSep tm s hskip hbe]
      refine ⟨rfl, by simp; try omega, by simp; try omega⟩
    | some p =>
      cases hk : (trimSpace p.1).isEmpty with
      | true =>
        rw [processLine_emptyKey tm s hskip hbe hk]
        refine ⟨rfl, by simp; try omega, by simp; try omega⟩
      | false =>
        cases htm : tm (trimSpace p.1) with
        | none =>
          rw [processLine_notFound tm s hskip hbe hk htm]
          refine ⟨rfl, by simp; try omega, by simp; try omega⟩
        | some tv =>
          rw [processLine_translated tm s hskip hbe hk htm]
          refine ⟨rfl, by simp; try omega, by simp; try omega⟩

theorem translateStep_stats (n : Nat) (l : List Char) (tm : GoMap)
    (s : TranslationStats) :
    ((translateStep n l tm s).2.totalLines = s.totalLines + 1)
    ∧ ((translateStep n l tm s).2.translated + (translateStep n l tm s).2.unchanged
        + (translateStep n l tm s).2.skipped
        = s.translated + s.unchanged + s.skipped + 1)
    ∧ ((translateStep n l tm s).2.notFound + s.unchanged
        ≤ s.notFound + (translateStep n l tm s).2.unchanged) := by
  simp only [translateStep]
  split
  · have h := processLine_stats l.tail tm { s with totalLines := s.totalLines + 1 }
    exact ⟨h.1, h.2.1, h.2.2⟩
  · have h := processLine_stats l tm { s with totalLines := s.totalLines + 1 }
    exact ⟨h.1, h.2.1, h.2.2⟩

theorem translateGo_inv (tm : GoMap) (lines : List (List Char)) :
    ∀ n s, s.totalLines = s.translated + s.unchanged + s.skipped →
      s.notFound ≤ s.unchanged →
      ((translateGo n lines tm s).2.totalLines
        = (translateGo n lines tm s).2.translated
          + (translateGo n lines tm s).2.unchanged
          + (translateGo n lines tm s).2.skipped)
      ∧ ((translateGo n lines tm s).2.notFound ≤ (translateGo n lines tm s).2.unchanged) := by
  induction lines with
  | nil => intro n s h1 h2; exact ⟨h1, h2⟩
  | cons l rest ih =>
    intro n s h1 h2
    simp only [translateGo]
    obtain ⟨ht, hb, hn⟩ := translateStep_stats n l tm s
    exact ih (n + 1) (translateStep n l tm s).2 (by omega) (by omega)

theorem translateStep_ge2 (n : Nat) (l : List Char) (tm : GoMap)
    (s : TranslationStats) (h : n ≠ 1) :
    translateStep n l tm s = processLine l tm { s with totalLines := s.totalLines + 1 } := by
  simp only [translateStep]
  rw [if_neg]
  simp [h]

theorem translateGo_idem_ge2 (tm : GoMap) (ls : List (List Char)) :
    ∀ n s s2, 2 ≤ n →
      (translateGo n ((translateGo n ls tm s).1) tm s2).1 = (translateGo n ls tm s).1 := by
  induction ls with
  | nil => intro n s s2 _; rfl
  | cons l rest ih =>
    intro n s s2 hn
    have hne : n ≠ 1 := by omega
    simp only [translateGo]
    have hhead : (translateStep n ((translateStep n l tm s).1) tm s2).1
        = (translateStep n l tm s).1 := by
      rw [translateStep_ge2 n l tm s hne,
        translateStep_ge2 n _ tm s2 hne]
      exact processLine_idem l tm _ _
    rw [hhead]
    rw [ih (n + 1) _ _ (by omega)]

/-! ## Lemmas about the extraction fold -/

theorem foldl_lastBinding (k : List Char) (es : List (List Char × List Char)) :
    ∀ acc, es.foldl (fun a p => if p.1 = k then some p.2 else a) acc
      = match lastBinding es k with
        | some v => some v
        | none => acc := by
  induction es with
  | nil => intro acc; rfl
  | cons e es2 ih =>
    intro acc
    have hrhs : lastBinding (e :: es2) k
        = match lastBinding es2 k with
          | some v => some v
          | none => if e.1 = k then some e.2 else none := by
      simp only [lastBinding, List.foldl_cons]
      rw [ih (if e.1 = k then some e.2 else none)]
      rfl
    rw [List.foldl_cons, ih (if e.1 = k then some e.2 else acc), hrhs]
    cases lastBinding es2 k with
    | none =>
      by_cases he : e.1 = k
      · rw [if_pos he, if_pos he]
      · rw [if_neg he, if_neg he]
    | some v => rfl

theorem parseINIGo_lookup (lines : List (List Char)) :
    ∀ n m k, parseINIGo n lines m k =
      match lastBinding (iniEntries n lines) k with
      | some v => some v
      | none => m k := by
  induction lines with
  | nil => intro n m k; rfl
  | cons l rest ih =>
    intro n m k
    simp only [parseINIGo, iniEntries]
    cases hpe : parseLineEntry n l with
    | none => exact ih (n + 1) m k
    | some kv =>
      show parseINIGo (n + 1) rest (mapInsert m kv.1 kv.2) k
          = match lastBinding (kv :: iniEntries (n + 1) rest) k with
            | some v => some v
            | none => m k
      rw [ih (n + 1) (mapInsert m kv.1 kv.2) k]
      have hl : lastBinding (kv :: iniEntries (n + 1) rest) k
          = match lastBinding (iniEntries (n + 1) rest) k with
            | some v => some v
            | none => if kv.1 = k then some kv.2 else none := by
        simp only [lastBinding, List.foldl_cons]
        rw [foldl_lastBinding k (iniEntries (n + 1) rest)
          (if kv.1 = k then some kv.2 else none)]
        rfl
      rw [hl]
      cases lastBinding (iniEntries (n + 1) rest) k with
      | some v => rfl
      | none =>
        show mapInsert m kv.1 kv.2 k = _
        simp only [mapInsert]
        by_cases hk : k = kv.1
        · rw [if_pos hk, if_pos (hk.symm)]
        · rw [if_neg hk, if_neg (fun he => hk he.symm)]

/-! ## Classification lemmas -/

theorem processLine_out_spec (line : List Char) (tm : GoMap) (s : TranslationStats) :
    (processLine line tm s).1 =
      match classifyProc line with
      | LineClass.valid k =>
        (match tm k with
         | some tv => k ++ '=' :: tv
         | none => line)
      | _ => line := by
  by_cases hskip : ((trimSpace line).isEmpty || startsWithChar '#' (trimSpace line) ||
      startsWithChar ';' (trimSpace line)) = true
  · rw [processLine_skip tm s hskip]
    cases hA : (trimSpace line).isEmpty with
    | true => simp [classifyProc, hA]
    | false =>
      have hBC : (startsWithChar '#' (trimSpace line) ||
          startsWithChar ';' (trimSpace line)) = true := by
        rw [hA] at hskip
        simpa using hskip
      simp [classifyProc, hA, hBC]
  · rw [Bool.not_eq_true] at hskip
    obtain ⟨hAB, hC⟩ := Bool.or_eq_false_iff.mp hskip
    obtain ⟨hA, hB⟩ := Bool.or_eq_false_iff.mp hAB
    cases hbe : breakEq line with
    | none =>
      rw [processLine_noSep tm s hskip hbe]
      simp [classifyProc, hA, hB, hC, hbe]
    | some p =>
      cases hk : (trimSpace p.1).isEmpty with
      | true =>
        rw [processLine_emptyKey tm s hskip hbe hk]
        simp [classifyProc, hA, hB, hC, hbe, hk]
      | false =>
        cases htm : tm (trimSpace p.1) with
        | none =>
          rw [processLine_notFound tm s hskip hbe hk htm]
          simp [classifyProc, hA, hB, hC, hbe, hk, htm]
        | some tv =>
          rw [processLine_translated tm s hskip hbe hk htm]
          simp [classifyProc, hA, hB, hC, hbe, hk, htm]

theorem parseLineEntry_classify (line : List Char) :
    parseLineEntry 2 line =
      match classifyInit line with
      | LineClass.valid k => some (k, initValue line)
      | _ => none := by
  have hbom : (decide ((2 : Nat) = 1) && startsWithChar bomChar line) = false := by
    simp
  simp only [parseLineEntry, hbom, Bool.false_eq_true, if_false]
  cases hA : (trimSpace line).isEmpty with
  | true => simp [classifyInit, hA]
  | false =>
    by_cases hBC : (startsWithChar '#' (trimSpace line) ||
        startsWithChar ';' (trimSpace line)) = true
    · simp [classifyInit, hA, hBC]
    · rw [Bool.not_eq_true] at hBC
      obtain ⟨hB, hC⟩ := Bool.or_eq_false_iff.mp hBC
      cases hbe : breakEq (trimSpace line) with
      | none => simp [classifyInit, hA, hB, hC, hbe]
      | some p =>
        cases hk : (trimSpace p.1).isEmpty with
        | true => simp [classifyInit, hA, hB, hC, hbe, hk]
        | false => simp [classifyInit, initValue, hA, hB, hC, hbe, hk]

theorem classifyInit_eq_classifyProc (l : List Char) :
    classifyInit l = classifyProc l := by
  obtain ⟨spL, spR, hdec, hL, hR⟩ := trimSpace_decomp l
  by_cases hA : (trimSpace l).isEmpty = true
  · simp [classifyInit, classifyProc, hA]
  · rw [Bool.not_eq_true] at hA
    by_cases hBC : (startsWithChar '#' (trimSpace l) ||
        startsWithChar ';' (trimSpace l)) = true
    · simp [classifyInit, classifyProc, hA, hBC]
    · rw [Bool.not_eq_true] at hBC
      obtain ⟨hB, hC⟩ := Bool.or_eq_false_iff.mp hBC
      have hspL : breakEq spL = none :=
        breakEq_none_iff.mpr fun hm => absurd (hL '=' hm) (by decide)
      have hspR : breakEq spR = none :=
        breakEq_none_iff.mpr fun hm => absurd (hR '=' hm) (by decide)
      cases hbt : breakEq (trimSpace l) with
      | none =>
        have h1 : breakEq (trimSpace l ++ spR) = none := by
          rw [breakEq_append_of_none spR hbt, hspR]
          rfl
        have h2 : breakEq l = none := by
          conv_lhs => rw [hdec, List.append_assoc]
          rw [breakEq_append_of_none _ hspL, h1]
          rfl
        simp [classifyInit, classifyProc, hA, hB, hC, hbt, h2]
      | some p =>
        have h1 : breakEq (trimSpace l ++ spR) = some (p.1, p.2 ++ spR) :=
          breakEq_append_of_some spR hbt
        have h2 : breakEq l = some (spL ++ p.1, p.2 ++ spR) := by
          conv_lhs => rw [hdec, List.append_assoc]
          rw [breakEq_append_of_none _ hspL, h1]
          rfl
        have hkeys : trimSpace (spL ++ p.1) = trimSpace p.1 :=
          trimSpace_spaces_append p.1 hL
        simp [classifyInit, classifyProc, hA, hB, hC, hbt, h2, hkeys]

/-! ## Claim theorems -/

/-- Claim C1 (code evaluated at the failing input): the byte buffer of
`"ASD_Country=国家\n"` saved as UTF-8 without a byte-order mark is valid
UTF-8, yet `detectFileEncoding` classifies it `"BIG5"` (the verdict
`TraditionalByteEncoding`), not `"UTF-8"` as the claim states — the UTF-8
bytes `BD E5` of `国家` match the BIG5 lead/trail ranges.  The second half of
the claim holds of the scanning function itself: `scanUTF8ForSimplified`
on this text reports exactly one flagged character, `国` (U+56FD), at
line 1 — but `main` never reaches it for this buffer. -/
theorem claim_C1_eval :
    asdBytes = utf8Encode asdContent
    ∧ hasUTF8BOM asdBytes = false
    ∧ utf8Valid asdBytes = true
    ∧ detectFileEncoding asdBytes = "BIG5"
    ∧ verdictOf (detectFileEncoding asdBytes) = EncodingVerdict.TraditionalByteEncoding
    ∧ scanUTF8ForSimplified asdContent = [(1, '国')] := by
  refine ⟨by decide, by decide, by decide, by decide, by decide, by decide⟩

/-- Claim C2, counterexample: the buffer `[0xFF]` does not start with the
byte-order mark, is not classified UTF-8 by the valid-UTF-8-and-no-high-byte
rule, and is accepted by neither the BIG5 nor the GBK check — yet the
classifier verdict is `UTF8`, not `Unknown` as the claim states. -/
theorem claim_C2_counterexample :
    hasUTF8BOM [0xFF] = false
    ∧ (utf8Valid [0xFF] && !(([0xFF] : List Nat).any fun b => 0x81 ≤ b && b ≤ 0xFE)
        && !(([0xFF] : List Nat).any fun b => 0xA1 ≤ b && b ≤ 0xF9)) = false
    ∧ isBIG5Encoded [0xFF] = false
    ∧ isGBKEncoded [0xFF] = false
    ∧ verdictOf (detectFileEncoding [0xFF]) ≠ EncodingVerdict.Unknown
    ∧ verdictOf (detectFileEncoding [0xFF]) = EncodingVerdict.UTF8 := by
  refine ⟨by decide, by decide, by decide, by decide, by decide, by decide⟩

/-- Claim C2 as amended: for every byte buffer accepted by neither the
BIG5 nor the GBK double-byte check, the classifier returns the default
verdict `"UTF-8"`; moreover no buffer whatsoever receives the `Unknown`
verdict (the `Unknown` branch of `main` is unreachable). -/
theorem claim_C2_amended (content : List Nat) :
    (isBIG5Encoded content = false → isGBKEncoded content = false →
      detectFileEncoding content = "UTF-8")
    ∧ verdictOf (detectFileEncoding content) ≠ EncodingVerdict.Unknown := by
  have hthree : detectFileEncoding content = "UTF-8"
      ∨ detectFileEncoding content = "BIG5"
      ∨ detectFileEncoding content = "GB2312/GBK" := by
    simp only [detectFileEncoding]
    split
    · exact Or.inl rfl
    · split
      · exact Or.inl rfl
      · split
        · exact Or.inr (Or.inl rfl)
        · split
          · exact Or.inr (Or.inr rfl)
          · exact Or.inl rfl
  constructor
  · intro h1 h2
    simp only [detectFileEncoding, h1, h2, Bool.false_eq_true, if_false]
    split
    · rfl
    · split
      · rfl
      · rfl
  · rcases hthree with h | h | h <;> rw [h] <;> decide

/-- Claim C2, witness: the amended theorem applied to the buffer `[0xFF]`. -/
theorem claim_C2_witness :
    isBIG5Encoded [0xFF] = false ∧ isGBKEncoded [0xFF] = false
    ∧ detectFileEncoding [0xFF] = "UTF-8"
    ∧ verdictOf (detectFileEncoding [0xFF]) ≠ EncodingVerdict.Unknown :=
  ⟨by decide, by decide, (claim_C2_amended [0xFF]).1 (by decide) (by decide),
    (claim_C2_amended [0xFF]).2⟩

/-- Claim C3, counterexample: the buffer `[0xFF, 0xA1, 0x40]` reaches the
Traditional-Chinese check (no byte-order mark, not classified UTF-8) and does
NOT decode as a whole under the claim's BIG5 rule set (0xFF is neither ASCII
nor a valid lead byte), yet the classifier returns `"BIG5"`: whole-buffer
decodability is not required by the code, one matching byte pair suffices. -/
theorem claim_C3_counterexample :
    hasUTF8BOM [0xFF, 0xA1, 0x40] = false
    ∧ (utf8Valid [0xFF, 0xA1, 0x40]
        && !(([0xFF, 0xA1, 0x40] : List Nat).any fun b => 0x81 ≤ b && b ≤ 0xFE)
        && !(([0xFF, 0xA1, 0x40] : List Nat).any fun b => 0xA1 ≤ b && b ≤ 0xF9)) = false
    ∧ big5WholeBufferDecodes [0xFF, 0xA1, 0x40] = false
    ∧ detectFileEncoding [0xFF, 0xA1, 0x40] = "BIG5" := by
  refine ⟨by decide, by decide, by decide, by decide⟩

/-- Claim C3 as amended: for every byte buffer reaching the
Traditional-Chinese check, the classifier returns `"BIG5"`
(`TraditionalByteEncoding`) if and only if some adjacent byte pair has a lead
byte in 0xA1–0xF9 and a trail byte in 0x40–0x7E or 0xA1–0xFE; the library
decoder substitutes U+FFFD for undecodable bytes instead of erroring, so
decodability of the whole buffer is not required. -/
theorem claim_C3_amended (content : List Nat)
    (h1 : hasUTF8BOM content = false)
    (h2 : (utf8Valid content && !(content.any fun b => 0x81 ≤ b && b ≤ 0xFE)
        && !(content.any fun b => 0xA1 ≤ b && b ≤ 0xF9)) = false) :
    detectFileEncoding content = "BIG5" ↔ hasBIG5Pair content = true := by
  have hbig : isBIG5Encoded content = hasBIG5Pair content := by
    cases content with
    | nil => rfl
    | cons a rest => simp [isBIG5Encoded]
  simp only [detectFileEncoding, h1, h2, Bool.false_eq_true, if_false]
  cases hb : hasBIG5Pair content with
  | true =>
    rw [hbig, hb]
    simp
  | false =>
    rw [hbig, hb]
    simp only [Bool.false_eq_true, if_false]
    constructor
    · intro h3
      split at h3
      · exact absurd h3 (by decide)
      · exact absurd h3 (by decide)
    · intro h3
      exact absurd h3 (by decide)

/-- Claim C3, witness: the amended theorem applied to the buffer
`[0xA1, 0x40]`, which carries a valid BIG5 pair and is classified `"BIG5"`. -/
theorem claim_C3_witness :
    hasUTF8BOM [0xA1, 0x40] = false
    ∧ (utf8Valid [0xA1, 0x40]
        && !(([0xA1, 0x40] : List Nat).any fun b => 0x81 ≤ b && b ≤ 0xFE)
        && !(([0xA1, 0x40] : List Nat).any fun b => 0xA1 ≤ b && b ≤ 0xF9)) = false
    ∧ (detectFileEncoding [0xA1, 0x40] = "BIG5" ↔ hasBIG5Pair [0xA1, 0x40] = true) :=
  ⟨by decide, by decide, claim_C3_amended [0xA1, 0x40] (by decide) (by decide)⟩

/-- Claim C4: after the substitution pass completes (and after every
per-line update, i.e. for every prefix of the input and for every single
step), the statistics satisfy `totalLines = translated + unchanged + skipped`,
and `notFound` is a sub-count of `unchanged`: a step raises `notFound` by at
most what it raises `unchanged`, and the run total keeps
`notFound ≤ unchanged`. -/
theorem claim_C4 (lines : List (List Char)) (tm : GoMap) :
    ((translateFile lines tm).2.totalLines
      = (translateFile lines tm).2.translated + (translateFile lines tm).2.unchanged
        + (translateFile lines tm).2.skipped)
    ∧ ((translateFile lines tm).2.notFound ≤ (translateFile lines tm).2.unchanged)
    ∧ (∀ k, (translateFile (lines.take k) tm).2.totalLines
        = (translateFile (lines.take k) tm).2.translated
          + (translateFile (lines.take k) tm).2.unchanged
          + (translateFile (lines.take k) tm).2.skipped
        ∧ (translateFile (lines.take k) tm).2.notFound
          ≤ (translateFile (lines.take k) tm).2.unchanged)
    ∧ (∀ n l s, (translateStep n l tm s).2.totalLines = s.totalLines + 1
        ∧ (translateStep n l tm s).2.translated + (translateStep n l tm s).2.unchanged
            + (translateStep n l tm s).2.skipped
          = s.translated + s.unchanged + s.skipped + 1
        ∧ (translateStep n l tm s).2.notFound + s.unchanged
          ≤ s.notFound + (translateStep n l tm s).2.unchanged) := by
  have hmain : ∀ ls : List (List Char),
      ((translateGo 1 ls tm zeroStats).2.totalLines
        = (translateGo 1 ls tm zeroStats).2.translated
          + (translateGo 1 ls tm zeroStats).2.unchanged
          + (translateGo 1 ls tm zeroStats).2.skipped)
      ∧ ((translateGo 1 ls tm zeroStats).2.notFound
        ≤ (translateGo 1 ls tm zeroStats).2.unchanged) :=
    fun ls => translateGo_inv tm ls 1 zeroStats rfl (Nat.le_refl 0)
  exact ⟨(hmain lines).1, (hmain lines).2, fun k => hmain (lines.take k),
    fun n l s => translateStep_stats n l tm s⟩

/-- Claim C5: the substitution pass emits exactly one line per input line,
in order (the i-th output line is the processed i-th input line, with the
line-1 byte-order-mark handling applied at position 1); each processed line
is the input line unchanged unless its classification is `valid` with the
key bound in the map, in which case only the value portion is rewritten, to
`key ++ "=" ++ mappedValue`. -/
theorem claim_C5 (lines : List (List Char)) (tm : GoMap) :
    ((translateFile lines tm).1.length = lines.length)
    ∧ (∀ i, (translateFile lines tm).1.get? i
        = (lines.get? i).map fun l => stepOut (i + 1) l tm)
    ∧ (∀ l s, (processLine l tm s).1 =
        match classifyProc l with
        | LineClass.valid k =>
          (match tm k with
           | some tv => k ++ '=' :: tv
           | none => l)
        | _ => l) := by
  refine ⟨translateGo_length tm lines 1 zeroStats, ?_,
    fun l s => processLine_out_spec l tm s⟩
  intro i
  have h := translateGo_get tm lines i 1 zeroStats
  rw [Nat.add_comm 1 i] at h
  exact h

/-- Claim C6, counterexample: with the one-line input `" ﻿k=v"` (a space,
then U+FEFF, then `k=v`) and the map `{"﻿k" ↦ "A", "k" ↦ "B"}`, the first
pass emits `"﻿k=A"`; on the second pass that line now begins with the
byte-order mark, which is stripped, so the key looked up is `"k"` and the
output changes to `"﻿k=B"`: the applier is not idempotent. -/
theorem claim_C6_counterexample :
    (translateFile ((translateFile bomCexLines bomCexMap).1) bomCexMap).1
      ≠ (translateFile bomCexLines bomCexMap).1 := by decide

/-- Claim C6 as amended: applying the substitution applier twice with the
same map is idempotent for every input whose first emitted line does not
acquire a leading U+FEFF that input line 1 lacked (`firstLineGainsBOM` is
false); in the remaining case the second pass strips the acquired mark as a
byte-order mark and parses a different key. -/
theorem claim_C6_amended (lines : List (List Char)) (tm : GoMap)
    (h : firstLineGainsBOM lines tm = false) :
    (translateFile ((translateFile lines tm).1) tm).1 = (translateFile lines tm).1 := by
  cases lines with
  | nil => rfl
  | cons l rest =>
    have hout : (translateFile (l :: rest) tm).1
        = (translateStep 1 l tm zeroStats).1
          :: (translateGo 2 rest tm (translateStep 1 l tm zeroStats).2).1 := rfl
    have hhead : (translateStep 1 ((translateStep 1 l tm zeroStats).1) tm zeroStats).1
        = (translateStep 1 l tm zeroStats).1 := by
      cases hb : startsWithChar bomChar l with
      | true =>
        have h1 : translateStep 1 l tm zeroStats
            = (bomChar :: (processLine l.tail tm
                { zeroStats with totalLines := zeroStats.totalLines + 1 }).1,
               (processLine l.tail tm
                { zeroStats with totalLines := zeroStats.totalLines + 1 }).2) := by
          simp only [translateStep]
          rw [if_pos (by simp [hb])]
        rw [h1]
        simp only [translateStep]
        rw [if_pos (by simp [startsWithChar])]
        simp only [List.tail_cons]
        rw [processLine_idem]
      | false =>
        have h1 : translateStep 1 l tm zeroStats
            = processLine l tm { zeroStats with totalLines := zeroStats.totalLines + 1 } := by
          simp only [translateStep]
          rw [if_neg (by simp [hb])]
        have hnb : startsWithChar bomChar ((translateStep 1 l tm zeroStats).1) = false := by
          have hh := h
          simp only [firstLineGainsBOM, hout] at hh
          simpa [hb] using hh
        rw [h1] at hnb ⊢
        simp only [translateStep]
        rw [if_neg (by simp [hnb])]
        exact processLine_idem l tm _ _
    have htail : (translateGo 2 ((translateGo 2 rest tm
        (translateStep 1 l tm zeroStats).2).1) tm
          (translateStep 1 ((translateStep 1 l tm zeroStats).1) tm zeroStats).2).1
        = (translateGo 2 rest tm (translateStep 1 l tm zeroStats).2).1 :=
      translateGo_idem_ge2 tm rest 2 _ _ (Nat.le_refl 2)
    calc (translateFile ((translateFile (l :: rest) tm).1) tm).1
        = (translateStep 1 ((translateStep 1 l tm zeroStats).1) tm zeroStats).1
          :: (translateGo 2 ((translateGo 2 rest tm
              (translateStep 1 l tm zeroStats).2).1) tm
              (translateStep 1 ((translateStep 1 l tm zeroStats).1) tm zeroStats).2).1 := by
          rw [hout]
          rfl
      _ = (translateStep 1 l tm zeroStats).1
          :: (translateGo 2 rest tm (translateStep 1 l tm zeroStats).2).1 := by
          rw [hhead, htail]
      _ = (translateFile (l :: rest) tm).1 := hout.symm

/-- Claim C6, witness: the amended theorem applied to the §8 example input
`K1=V1`, `K2=V2` with map `{K1 ↦ X1}` (whose line 1 gains no mark). -/
theorem claim_C6_witness :
    firstLineGainsBOM demoLines demoMap = false
    ∧ (translateFile ((translateFile demoLines demoMap).1) demoMap).1
      = (translateFile demoLines demoMap).1 :=
  ⟨by decide, claim_C6_amended demoLines demoMap (by decide)⟩

/-- Claim C7: whenever line 1 of the input begins with U+FEFF, the emitted
line 1 is the mark re-prepended to the processed remainder of the line —
with no assumption on that remainder's classification. -/
theorem claim_C7 (lines : List (List Char)) (tm : GoMap) (l : List Char)
    (h1 : lines.head? = some l) (h2 : startsWithChar bomChar l = true) :
    (translateFile lines tm).1.head?
      = some (bomChar :: (processLine l.tail tm
          { zeroStats with totalLines := zeroStats.totalLines + 1 }).1) := by
  cases lines with
  | nil => simp at h1
  | cons l0 rest =>
    have hl : l0 = l := by simpa using h1
    subst hl
    have hstep : translateStep 1 l0 tm zeroStats
        = (bomChar :: (processLine l0.tail tm
            { zeroStats with totalLines := zeroStats.totalLines + 1 }).1,
           (processLine l0.tail tm
            { zeroStats with totalLines := zeroStats.totalLines + 1 }).2) := by
      simp only [translateStep]
      rw [if_pos (by simp [h2])]
    show ((translateStep 1 l0 tm zeroStats).1
        :: (translateGo 2 rest tm (translateStep 1 l0 tm zeroStats).2).1).head? = _
    rw [hstep]
    rfl

/-- Claim C7, witness: the theorem applied to the one-line input whose
line 1 is the byte-order mark followed by the comment `#c`. -/
theorem claim_C7_witness :
    (translateFile [[bomChar, '#', 'c']] emptyGoMap).1.head?
      = some (bomChar :: (processLine ([bomChar, '#', 'c'] : List Char).tail emptyGoMap
          { zeroStats with totalLines := zeroStats.totalLines + 1 }).1) :=
  claim_C7 [[bomChar, '#', 'c']] emptyGoMap [bomChar, '#', 'c'] rfl (by decide)

/-- Claim C8: a non-blank, non-comment line with no `'='` is emitted
unchanged and bumps exactly the `unchanged` counter (`skipped` and every
other field are untouched); `processLine` is a total function, so such a
line never aborts the run. -/
theorem claim_C8 (line : List Char) (tm : GoMap) (s : TranslationStats)
    (h1 : (trimSpace line).isEmpty = false)
    (h2 : startsWithChar '#' (trimSpace line) = false)
    (h3 : startsWithChar ';' (trimSpace line) = false)
    (h4 : breakEq line = none) :
    processLine line tm s = (line, { s with unchanged := s.unchanged + 1 }) := by
  apply processLine_noSep tm s _ h4
  simp [h1, h2, h3]

/-- Claim C8, witness: the theorem applied to the line `"no_equals_here"`. -/
theorem claim_C8_witness :
    processLine "no_equals_here".data emptyGoMap zeroStats
      = ("no_equals_here".data, { zeroStats with unchanged := zeroStats.unchanged + 1 }) :=
  claim_C8 "no_equals_here".data emptyGoMap zeroStats
    (by decide) (by decide) (by decide) (by decide)

/-- Claim C9: the map built by the extraction pass is the last-write-wins
fold of the parsed records: the value bound to any key equals the value of
that key's last record in scan order (and `none` exactly when the key never
occurs). -/
theorem claim_C9 (lines : List (List Char)) (k : List Char) :
    parseINIFile lines k = lastBinding (iniEntries 1 lines) k := by
  have h := parseINIGo_lookup lines 1 emptyGoMap k
  rw [show parseINIFile lines = parseINIGo 1 lines emptyGoMap from rfl, h]
  cases lastBinding (iniEntries 1 lines) k with
  | none => rfl
  | some v => rfl

/-- Claim C10: ignoring line-1 byte-order-mark handling, the extractor's
parsing (`'='` searched in the trimmed line) and the substitution applier's
parsing (`'='` searched in the raw line) classify every line identically and
extract the identical trimmed key; the two classifiers are grounded in
`parseLineEntry` and `processLine` by the second and third conjuncts. -/
theorem claim_C10 (line : List Char) (tm : GoMap) (s : TranslationStats) :
    classifyInit line = classifyProc line
    ∧ parseLineEntry 2 line =
        (match classifyInit line with
         | LineClass.valid k => some (k, initValue line)
         | _ => none)
    ∧ (processLine line tm s).1 =
        (match classifyProc line with
         | LineClass.valid k =>
           (match tm k with
            | some tv => k ++ '=' :: tv
            | none => line)
         | _ => line) :=
  ⟨classifyInit_eq_classifyProc line, parseLineEntry_classify line,
    processLine_out_spec line tm s⟩

end TranslateCitizen
